import Mathlib

/-!
Verification of the Fourier-epicycle animation core of this repository.

The development shallowly embeds three pieces of the source:

* `JsList` — the `List` class of `assets/js/list.js` (the spec's
  `RingSequence`): a growable double-ended array with `prepend`, `append`,
  `pop`, `get`, `set`, `clear` and an internal recentering `_resize`.
  JavaScript arrays are objects, so writes at negative indices succeed as
  property writes; the backing store is therefore modelled as a total map
  `ℤ → Option α` (`none` models both `null` slots and absent properties,
  neither of which is ever observed through the public API).  JavaScript
  `Math.floor(x / 2)` on integers is floor division, which for the positive
  divisor 2 is `Int.ediv`, written `/` below.
* `dft` — the discrete Fourier transform of `assets/js/dft.js`, over exact
  reals (`Math.hypot a b` is `Real.sqrt (a^2 + b^2)`, `Math.atan2 y x` is
  `Complex.arg ⟨x, y⟩`).
* the animation frame step of `assets/js/home-animation.js` — bounding box,
  scale computation (with a JavaScript-number model `JsNum` that tracks
  infinities and NaN, since division by a zero-sized bounding box is what
  the safety claim is about), the gated `draw` step, and the
  resize/requestAnimationFrame scheduling.
-/

open scoped Real

/-- One cell of the logical element type is stored per occupied slot.
`JsList` is the state of a `List` instance from `list.js`:
`initialCapacity`, `_capacity`, `_buffer`, `_head`, `_tail`, `length`. -/
structure JsList (α : Type) where
  initialCapacity : ℤ
  capacity : ℤ
  buffer : ℤ → Option α
  head : ℤ
  tail : ℤ
  length : ℤ

namespace JsList

/-- `constructor(initialCapacity)`: buffer of `null`s, head at the middle
(`Math.floor(initialCapacity / 2)`), tail just before it, length 0. -/
def mkList (α : Type) (c : ℤ) : JsList α :=
  { initialCapacity := c
    capacity := c
    buffer := fun _ => none
    head := c / 2
    tail := c / 2 - 1
    length := 0 }

/-- `_resize()`: double the capacity, recenter the occupied window
(`newHead = Math.floor((newCapacity - this.length) / 2)`), copy the
`length` live slots, everything else is `null`. -/
def resize (s : JsList α) : JsList α :=
  let newCapacity := s.capacity * 2
  let newHead := (newCapacity - s.length) / 2
  { s with
    capacity := newCapacity
    head := newHead
    tail := newHead + s.length - 1
    buffer := fun j =>
      if newHead ≤ j ∧ j < newHead + s.length then s.buffer (s.head + (j - newHead))
      else none }

/-- `prepend(item)`: resize when the head is exhausted (`_head === 0`),
then write at `--_head` and increment the length. -/
def prepend (s : JsList α) (item : α) : JsList α :=
  let s1 := if s.head = 0 then resize s else s
  { s1 with
    head := s1.head - 1
    buffer := fun j => if j = s1.head - 1 then some item else s1.buffer j
    length := s1.length + 1 }

/-- `append(item)`: resize when the tail is exhausted
(`_tail === _capacity - 1`), then write at `++_tail`. -/
def append (s : JsList α) (item : α) : JsList α :=
  let s1 := if s.tail = s.capacity - 1 then resize s else s
  { s1 with
    tail := s1.tail + 1
    buffer := fun j => if j = s1.tail + 1 then some item else s1.buffer j
    length := s1.length + 1 }

/-- `pop()`: `undefined` on an empty list, otherwise remove and return the
tail element (the removed slot is reset to `null`). -/
def pop (s : JsList α) : Option α × JsList α :=
  if s.length = 0 then (none, s)
  else
    (s.buffer s.tail,
      { s with
        buffer := fun j => if j = s.tail then none else s.buffer j
        tail := s.tail - 1
        length := s.length - 1 })

/-- `get(index)`: bounds-checked read at `_buffer[_head + index]`. -/
def get (s : JsList α) (index : ℤ) : Option α :=
  if index < 0 ∨ s.length ≤ index then none
  else s.buffer (s.head + index)

/-- `set(index, value)`: bounds-checked write, `false` and no mutation when
out of range. -/
def set (s : JsList α) (index : ℤ) (value : α) : Bool × JsList α :=
  if index < 0 ∨ s.length ≤ index then (false, s)
  else
    (true,
      { s with buffer := fun j => if j = s.head + index then some value else s.buffer j })

/-- `clear()`: reset capacity to the original initial capacity, fresh
`null` buffer, head back to the middle, length 0. -/
def clear (s : JsList α) : JsList α :=
  { initialCapacity := s.initialCapacity
    capacity := s.initialCapacity
    buffer := fun _ => none
    head := s.initialCapacity / 2
    tail := s.initialCapacity / 2 - 1
    length := 0 }

end JsList

/-- A single mutating call on a `JsList` (the return values of `prepend`,
`append`, `pop` and `set` are discarded when the call is used as a step of
an operation sequence). -/
inductive Op (α : Type) where
  | prependOp (v : α)
  | appendOp (v : α)
  | popOp
  | setOp (i : ℤ) (v : α)
  | clearOp

/-- Apply one operation to a `JsList` state. -/
def Op.step (s : JsList α) : Op α → JsList α
  | .prependOp v => s.prepend v
  | .appendOp v => s.append v
  | .popOp => (s.pop).2
  | .setOp i v => (s.set i v).2
  | .clearOp => s.clear

/-- Run a sequence of operations (the call history) on a `JsList` state. -/
def runOps (ops : List (Op α)) (s : JsList α) : JsList α :=
  ops.foldl Op.step s

/-- Modelled from the spec: the logical sequence determined by a call
history — `prepend` adds at logical index 0, `append` adds at logical index
`length`, `pop` removes the logical last element, in-range `set` replaces
one element, `clear` empties the sequence. -/
def Op.model : Op α → List α → List α
  | .prependOp v, l => v :: l
  | .appendOp v, l => l ++ [v]
  | .popOp, l => l.dropLast
  | .setOp i v, l => if 0 ≤ i ∧ i < (l.length : ℤ) then l.set i.toNat v else l
  | .clearOp, _ => []

/-- The logical sequence after a call history, starting empty. -/
def runModel (ops : List (Op α)) (l : List α) : List α :=
  ops.foldl (fun l o => o.model l) l

/-- `op.isEndInsert` holds when the operation is a `prepend` or an
`append`. -/
def Op.isEndInsert : Op α → Prop
  | .prependOp _ => True
  | .appendOp _ => True
  | _ => False

/-- Refinement relation between a `JsList` state and the logical sequence
it represents: the lengths agree, the tail pointer closes the occupied
window, and slot `head + i` holds the `i`-th logical element. -/
def Sim (s : JsList α) (l : List α) : Prop :=
  s.length = (l.length : ℤ) ∧
  s.tail = s.head + s.length - 1 ∧
  ∀ i : ℕ, i < l.length → s.buffer (s.head + i) = l[i]?

/-- Structural invariant behind the capacity claim: positive capacity
bound below by 2, nonnegative head, window closed by the tail pointer, and
the tail inside the capacity. -/
def CapInv (s : JsList α) : Prop :=
  2 ≤ s.initialCapacity ∧ 2 ≤ s.capacity ∧ 0 ≤ s.head ∧
  s.tail = s.head + s.length - 1 ∧ s.tail ≤ s.capacity - 1 ∧ 0 ≤ s.length

open scoped Classical

/-- JavaScript number model for the per-frame scale computation: finite
reals plus `Infinity`, `-Infinity` and `NaN` — the values produced when the
bounding-box dimensions are zero.  (`-0` is not distinguished; no claim
depends on it.) -/
inductive JsNum where
  | fin (x : ℝ)
  | posInf
  | negInf
  | nan

namespace JsNum

/-- The `<` comparison of JavaScript numbers (any comparison with `NaN` is
false). -/
def lt : JsNum → JsNum → Prop
  | nan, _ => False
  | _, nan => False
  | fin a, fin b => a < b
  | fin _, posInf => True
  | fin _, negInf => False
  | posInf, _ => False
  | negInf, negInf => False
  | negInf, _ => True

/-- JavaScript subtraction. -/
def sub : JsNum → JsNum → JsNum
  | nan, _ => nan
  | _, nan => nan
  | fin a, fin b => fin (a - b)
  | fin _, posInf => negInf
  | fin _, negInf => posInf
  | posInf, fin _ => posInf
  | posInf, posInf => nan
  | posInf, negInf => posInf
  | negInf, fin _ => negInf
  | negInf, posInf => negInf
  | negInf, negInf => nan

/-- JavaScript division; dividing a nonzero finite number by zero yields a
signed infinity, `0 / 0` yields `NaN`. -/
noncomputable def div : JsNum → JsNum → JsNum
  | nan, _ => nan
  | _, nan => nan
  | fin a, fin b =>
      if b = 0 then (if a = 0 then nan else if 0 < a then posInf else negInf)
      else fin (a / b)
  | fin _, posInf => fin 0
  | fin _, negInf => fin 0
  | posInf, fin b => if 0 ≤ b then posInf else negInf
  | negInf, fin b => if 0 ≤ b then negInf else posInf
  | posInf, posInf => nan
  | posInf, negInf => nan
  | negInf, posInf => nan
  | negInf, negInf => nan

/-- `Math.min` of two numbers (`NaN` is contagious). -/
noncomputable def min : JsNum → JsNum → JsNum
  | nan, _ => nan
  | _, nan => nan
  | a, b => if lt b a then b else a

/-- JavaScript multiplication; an infinity times zero is `NaN`. -/
noncomputable def mul : JsNum → JsNum → JsNum
  | nan, _ => nan
  | _, nan => nan
  | fin a, fin b => fin (a * b)
  | fin a, posInf => if a = 0 then nan else if 0 < a then posInf else negInf
  | fin a, negInf => if a = 0 then nan else if 0 < a then negInf else posInf
  | posInf, fin b => if b = 0 then nan else if 0 < b then posInf else negInf
  | negInf, fin b => if b = 0 then nan else if 0 < b then negInf else posInf
  | posInf, posInf => posInf
  | posInf, negInf => negInf
  | negInf, posInf => negInf
  | negInf, negInf => posInf

/-- `Number.isFinite`. -/
def isFinite : JsNum → Prop
  | fin _ => True
  | _ => False

end JsNum

/-- The `minX` accumulation of `home-animation.js`: start at `Infinity`,
replace whenever a point's x-coordinate is smaller. -/
noncomputable def minXOf (pts : List (ℝ × ℝ)) : JsNum :=
  pts.foldl (fun m pt => if JsNum.lt (.fin pt.1) m then .fin pt.1 else m) .posInf

/-- The `maxX` accumulation: start at `-Infinity`, replace whenever a
point's x-coordinate is larger. -/
noncomputable def maxXOf (pts : List (ℝ × ℝ)) : JsNum :=
  pts.foldl (fun m pt => if JsNum.lt m (.fin pt.1) then .fin pt.1 else m) .negInf

/-- The `minY` accumulation. -/
noncomputable def minYOf (pts : List (ℝ × ℝ)) : JsNum :=
  pts.foldl (fun m pt => if JsNum.lt (.fin pt.2) m then .fin pt.2 else m) .posInf

/-- The `maxY` accumulation. -/
noncomputable def maxYOf (pts : List (ℝ × ℝ)) : JsNum :=
  pts.foldl (fun m pt => if JsNum.lt m (.fin pt.2) then .fin pt.2 else m) .negInf

/-- `designWidth = maxX - minX`. -/
noncomputable def designWidthOf (pts : List (ℝ × ℝ)) : JsNum :=
  (maxXOf pts).sub (minXOf pts)

/-- `designHeight = maxY - minY`. -/
noncomputable def designHeightOf (pts : List (ℝ × ℝ)) : JsNum :=
  (maxYOf pts).sub (minYOf pts)

/-- The per-frame scale computation of `draw`:
`scale = Math.min(cssWidth / designWidth, cssHeight / designHeight) * 0.9`.
The code contains no clamping of a degenerate bounding-box dimension. -/
noncomputable def computeScale (cssWidth cssHeight : JsNum) (pts : List (ℝ × ℝ)) : JsNum :=
  ((cssWidth.div (designWidthOf pts)).min (cssHeight.div (designHeightOf pts))).mul
    (.fin 0.9)

/-- A complex input point `{re, im}` of `dft.js`. -/
structure Pt where
  re : ℝ
  im : ℝ

/-- A Fourier descriptor `{re, im, freq, amp, phase}` of `dft.js`. -/
structure Desc where
  re : ℝ
  im : ℝ
  freq : ℕ
  amp : ℝ
  phase : ℝ

/-- `Math.atan2 y x`, which is the complex argument of `x + y·i` (range
`(-π, π]`, and `atan2 0 0 = 0`). -/
noncomputable def atan2 (y x : ℝ) : ℝ := Complex.arg ⟨x, y⟩

/-- The `re` accumulator of the inner loop of `dft` at output index `k`
(`re += x[n].re * cos(phi) + x[n].im * sin(phi)` with
`phi = 2πkn/N`), after the final `re /= N`. -/
noncomputable def dftRe (x : List Pt) (k : ℕ) : ℝ :=
  (∑ n ∈ Finset.range x.length,
      ((x.getD n ⟨0, 0⟩).re * Real.cos (2 * π * k * n / x.length) +
        (x.getD n ⟨0, 0⟩).im * Real.sin (2 * π * k * n / x.length))) / x.length

/-- The `im` accumulator of the inner loop of `dft` at output index `k`
(`im += -x[n].re * sin(phi) + x[n].im * cos(phi)`), after `im /= N`. -/
noncomputable def dftIm (x : List Pt) (k : ℕ) : ℝ :=
  (∑ n ∈ Finset.range x.length,
      (-(x.getD n ⟨0, 0⟩).re * Real.sin (2 * π * k * n / x.length) +
        (x.getD n ⟨0, 0⟩).im * Real.cos (2 * π * k * n / x.length))) / x.length

/-- `dft(x)`: one descriptor per output index `k = 0 .. N-1`, pushed in
frequency order; `amp = Math.hypot(re, im)`, `phase = Math.atan2(im, re)`,
`freq = k`. -/
noncomputable def dft (x : List Pt) : List Desc :=
  (List.range x.length).map fun k =>
    { re := dftRe x k
      im := dftIm x k
      freq := k
      amp := Real.sqrt (dftRe x k ^ 2 + dftIm x k ^ 2)
      phase := atan2 (dftIm x k) (dftRe x k) }

/-- A drawn point `{x, y}`. -/
structure XY where
  x : ℝ
  y : ℝ

/-- Animation state of `home-animation.js`: `time`, the trail buffer
`path` (a `List` instance), and `lastFrameTime`. -/
structure AnimState where
  time : ℝ
  path : JsList XY
  lastFrameTime : ℝ

/-- `dt = (2 * Math.PI) / fourier.length`. -/
noncomputable def dtOf (fourier : List Desc) : ℝ := 2 * π / fourier.length

/-- The tip of the epicycle chain at time `t`: the `draw` loop starts the
cursor at the origin and adds `amp * cos(freq * t + phase)` to `x` and
`amp * sin(freq * t + phase)` to `y` for every descriptor in order. -/
noncomputable def tip (fourier : List Desc) (t : ℝ) : XY :=
  { x := (fourier.map fun f => f.amp * Real.cos (f.freq * t + f.phase)).sum
    y := (fourier.map fun f => f.amp * Real.sin (f.freq * t + f.phase)).sum }

/-- The JavaScript `%` restricted to a nonnegative dividend and positive
modulus: `a - b * ⌊a / b⌋`. -/
noncomputable def fmod (a b : ℝ) : ℝ := a - b * ⌊a / b⌋

/-- The gated body of `draw` (executed when enough time has elapsed):
prepend the epicycle tip to the trail, set `lastFrameTime`, advance `time`
by `dt`, and when `time` reaches `2π` reduce it modulo `2π` and clear the
trail. -/
noncomputable def processedFrame (fourier : List Desc) (s : AnimState)
    (currentTime : ℝ) : AnimState :=
  let p1 := s.path.prepend (tip fourier s.time)
  let t1 := s.time + dtOf fourier
  if 2 * π ≤ t1 then
    { time := fmod t1 (2 * π), path := p1.clear, lastFrameTime := currentTime }
  else
    { time := t1, path := p1, lastFrameTime := currentTime }

/-- One invocation of `draw(currentTime)`: set `lastFrameTime` on the very
first frame, then run the gated body only when more than `1000 / 60`
milliseconds have elapsed (`animationSpeed = 1`). -/
noncomputable def drawStep (fourier : List Desc) (s : AnimState)
    (currentTime : ℝ) : AnimState :=
  let lf := if s.lastFrameTime = 0 then currentTime else s.lastFrameTime
  if 1000 / 60 < currentTime - lf then
    processedFrame fourier { s with lastFrameTime := lf } currentTime
  else
    { s with lastFrameTime := lf }

/-- The state reset performed by `resizeCanvas`: `path.clear()`,
`time = 0`, `lastFrameTime = 0`. -/
noncomputable def resizeReset (s : AnimState) : AnimState :=
  { time := 0, path := s.path.clear, lastFrameTime := 0 }

/-- Scheduling state: the animation state, the currently pending
`requestAnimationFrame` handle (`animationFrameId`), and the next fresh
handle the host will issue. -/
structure LoopState where
  anim : AnimState
  pending : Option ℕ
  nextHandle : ℕ

/-- Host/handler transitions of the animation loop.  A `tick` is the host
firing the currently pending request — the handler runs `drawStep` and
unconditionally re-requests a frame, receiving a fresh handle.  A `resize`
is `resizeCanvas` — it cancels the pending request, resets the animation
state, and requests a fresh frame.  The host only ever fires the handle it
currently holds as pending. -/
inductive LoopStep (fourier : List Desc) : LoopState → LoopState → Prop
  | tick (l : LoopState) (h : ℕ) (t : ℝ) (hp : l.pending = some h) :
      LoopStep fourier l
        { anim := drawStep fourier l.anim t
          pending := some l.nextHandle
          nextHandle := l.nextHandle + 1 }
  | resize (l : LoopState) :
      LoopStep fourier l
        { anim := resizeReset l.anim
          pending := some l.nextHandle
          nextHandle := l.nextHandle + 1 }

/-- Handle freshness: any pending handle was issued before `nextHandle`. -/
def HandleInv (l : LoopState) : Prop :=
  ∀ h, l.pending = some h → h < l.nextHandle

/-- Trail-length invariant coupling `time` to the number of processed
frames since the last wrap of `time`. -/
noncomputable def TrailInv (fourier : List Desc) (s : AnimState) : Prop :=
  ∃ k : ℕ, k < fourier.length ∧ s.time = k * dtOf fourier ∧ s.path.length ≤ (k : ℤ)

theorem JsList.mkList_sim (α : Type) (c : ℤ) : Sim (JsList.mkList α c) [] := by
  refine ⟨by simp [JsList.mkList], by simp [JsList.mkList], ?_⟩
  intro i hi
  simp at hi

theorem JsList.resize_sim {α : Type} {s : JsList α} {l : List α} (h : Sim s l) :
    Sim s.resize l := by
  obtain ⟨hlen, htail, hbuf⟩ := h
  refine ⟨hlen, by simp [JsList.resize], ?_⟩
  intro i hi
  have hi2 : (i : ℤ) < s.length := by rw [hlen]; exact_mod_cast hi
  simp only [JsList.resize]
  rw [if_pos ⟨by omega, by omega⟩]
  have harg : s.head + ((s.capacity * 2 - s.length) / 2 + (i : ℤ) -
      (s.capacity * 2 - s.length) / 2) = s.head + i := by ring
  rw [harg]
  exact hbuf i hi

theorem JsList.prepend_sim {α : Type} {s : JsList α} {l : List α} (h : Sim s l) (v : α) :
    Sim (s.prepend v) (v :: l) := by
  have h1 : Sim (if s.head = 0 then s.resize else s) l := by
    split
    · exact JsList.resize_sim h
    · exact h
  set s1 := if s.head = 0 then s.resize else s with hs1
  obtain ⟨hlen, htail, hbuf⟩ := h1
  simp only [JsList.prepend, ← hs1]
  refine ⟨by simp [hlen], by simp [htail], ?_⟩
  intro i hi
  cases i with
  | zero => simp
  | succ i2 =>
    have hi2 : i2 < l.length := by simpa using hi
    push_cast
    have harg : s1.head - 1 + ((i2 : ℤ) + 1) = s1.head + i2 := by ring
    rw [harg, if_neg (by omega), List.getElem?_cons_succ]
    exact hbuf i2 hi2

theorem JsList.append_sim {α : Type} {s : JsList α} {l : List α} (h : Sim s l) (v : α) :
    Sim (s.append v) (l ++ [v]) := by
  have h1 : Sim (if s.tail = s.capacity - 1 then s.resize else s) l := by
    split
    · exact JsList.resize_sim h
    · exact h
  set s1 := if s.tail = s.capacity - 1 then s.resize else s with hs1
  obtain ⟨hlen, htail, hbuf⟩ := h1
  simp only [JsList.append, ← hs1]
  refine ⟨by simp [hlen], by simp [htail]; omega, ?_⟩
  intro i hi
  simp only [List.length_append, List.length_cons, List.length_nil] at hi
  rcases Nat.lt_or_ge i l.length with hlt | hge
  · have hne : s1.head + (i : ℤ) ≠ s1.tail + 1 := by
      rw [htail, hlen]
      omega
    simp only [if_neg hne]
    rw [List.getElem?_append, if_pos hlt]
    exact hbuf i hlt
  · have hieq : i = l.length := by omega
    subst hieq
    have heq : s1.head + (l.length : ℤ) = s1.tail + 1 := by rw [htail, hlen]; ring
    simp only [heq, if_pos]
    rw [List.getElem?_concat_length]

theorem JsList.pop_sim {α : Type} {s : JsList α} {l : List α} (h : Sim s l) :
    Sim (s.pop).2 l.dropLast := by
  obtain ⟨hlen, htail, hbuf⟩ := h
  by_cases h0 : s.length = 0
  · have hl0 : l = [] := by
      rw [← List.length_eq_zero]
      omega
    subst hl0
    simp only [JsList.pop, if_pos h0, List.dropLast_nil]
    exact ⟨hlen, htail, hbuf⟩
  · have hl1 : 1 ≤ l.length := by
      rcases Nat.eq_zero_or_pos l.length with h | h
      · exfalso; apply h0; rw [hlen, h]; rfl
      · omega
    simp only [JsList.pop, if_neg h0]
    refine ⟨by rw [List.length_dropLast]; push_cast; omega, by rw [htail]; ring, ?_⟩
    intro i hi
    rw [List.length_dropLast] at hi
    have hne : s.head + (i : ℤ) ≠ s.tail := by
      rw [htail, hlen]
      omega
    simp only [if_neg hne]
    rw [List.dropLast_eq_take, List.getElem?_take, if_pos hi]
    exact hbuf i (by omega)

theorem JsList.set_sim {α : Type} {s : JsList α} {l : List α} (h : Sim s l) (i : ℤ) (v : α) :
    Sim (s.set i v).2 ((Op.setOp i v).model l) := by
  obtain ⟨hlen, htail, hbuf⟩ := h
  by_cases hin : i < 0 ∨ s.length ≤ i
  · have hout : ¬ (0 ≤ i ∧ i < (l.length : ℤ)) := by omega
    simp only [JsList.set, if_pos hin, Op.model, if_neg hout]
    exact ⟨hlen, htail, hbuf⟩
  · have hin2 : 0 ≤ i ∧ i < (l.length : ℤ) := by omega
    simp only [JsList.set, if_neg hin, Op.model, if_pos hin2]
    refine ⟨by rw [List.length_set]; exact hlen, htail, ?_⟩
    intro j hj
    rw [List.length_set] at hj
    by_cases hji : (j : ℤ) = i
    · have hji2 : j = i.toNat := by omega
      have heq : s.head + (j : ℤ) = s.head + i := by omega
      subst hji2
      simp only [heq, if_pos]
      rw [List.getElem?_set_self (by omega)]
    · have hne : s.head + (j : ℤ) ≠ s.head + i := by omega
      simp only [if_neg hne]
      rw [List.getElem?_set_ne (by omega)]
      exact hbuf j hj

theorem JsList.clear_sim {α : Type} (s : JsList α) :
    Sim s.clear ([] : List α) := by
  refine ⟨by simp [JsList.clear], by simp [JsList.clear], ?_⟩
  intro i hi
  simp at hi

theorem Op.step_sim {α : Type} {s : JsList α} {l : List α} (h : Sim s l) (o : Op α) :
    Sim (o.step s) (o.model l) := by
  cases o with
  | prependOp v => exact JsList.prepend_sim h v
  | appendOp v => exact JsList.append_sim h v
  | popOp => exact JsList.pop_sim h
  | setOp i v => exact JsList.set_sim h i v
  | clearOp => exact JsList.clear_sim s

theorem runOps_sim {α : Type} (ops : List (Op α)) {s : JsList α} {l : List α}
    (h : Sim s l) : Sim (runOps ops s) (runModel ops l) := by
  induction ops generalizing s l with
  | nil => exact h
  | cons o rest ih => exact ih (Op.step_sim h o)

theorem JsList.capInv_mkList (α : Type) (c : ℤ) (hc : 2 ≤ c) :
    CapInv (JsList.mkList α c) := by
  simp only [CapInv, JsList.mkList]
  omega

theorem JsList.capInv_resize {α : Type} {s : JsList α} (h : CapInv s) :
    CapInv s.resize ∧ 1 ≤ s.resize.head ∧ s.resize.tail ≤ s.resize.capacity - 2 := by
  simp only [CapInv, JsList.resize, true_and, and_true] at *
  omega

theorem Op.capInv_step {α : Type} {s : JsList α} (h : CapInv s) (o : Op α) :
    CapInv (o.step s) := by
  cases o with
  | prependOp v =>
    simp only [Op.step, JsList.prepend]
    split
    · have hr := JsList.capInv_resize h
      simp only [CapInv, JsList.resize, true_and, and_true] at hr ⊢
      omega
    · simp only [CapInv, true_and, and_true] at h ⊢
      omega
  | appendOp v =>
    simp only [Op.step, JsList.append]
    split
    · have hr := JsList.capInv_resize h
      simp only [CapInv, JsList.resize, true_and, and_true] at hr ⊢
      omega
    · simp only [CapInv, true_and, and_true] at h ⊢
      omega
  | popOp =>
    simp only [Op.step, JsList.pop]
    split
    · exact h
    · simp only [CapInv, true_and, and_true] at h ⊢
      omega
  | setOp i v =>
    simp only [Op.step, JsList.set]
    split
    · exact h
    · simp only [CapInv, true_and, and_true] at h ⊢
      omega
  | clearOp =>
    simp only [Op.step, JsList.clear, CapInv, true_and, and_true] at h ⊢
    omega

theorem runOps_capInv {α : Type} (ops : List (Op α)) {s : JsList α} (h : CapInv s) :
    CapInv (runOps ops s) := by
  induction ops generalizing s with
  | nil => exact h
  | cons o rest ih => exact ih (Op.capInv_step h o)

theorem Op.capacity_change {α : Type} (s : JsList α) (o : Op α) :
    (o.step s).capacity = s.capacity ∨ (o.step s).capacity = 2 * s.capacity ∨
      (o.step s).capacity = s.initialCapacity := by
  cases o with
  | prependOp v =>
    simp only [Op.step, JsList.prepend]
    split
    · refine Or.inr (Or.inl ?_)
      show s.capacity * 2 = 2 * s.capacity
      ring
    · exact Or.inl rfl
  | appendOp v =>
    simp only [Op.step, JsList.append]
    split
    · refine Or.inr (Or.inl ?_)
      show s.capacity * 2 = 2 * s.capacity
      ring
    · exact Or.inl rfl
  | popOp =>
    simp only [Op.step, JsList.pop]
    split <;> exact Or.inl rfl
  | setOp i v =>
    simp only [Op.step, JsList.set]
    split <;> exact Or.inl rfl
  | clearOp => exact Or.inr (Or.inr rfl)

theorem runOps_cons {α : Type} (o : Op α) (ops : List (Op α)) (s : JsList α) :
    runOps (o :: ops) s = runOps ops (o.step s) := rfl

theorem Op.step_initialCapacity {α : Type} (s : JsList α) (o : Op α) :
    (o.step s).initialCapacity = s.initialCapacity := by
  cases o with
  | prependOp v =>
    simp only [Op.step, JsList.prepend, JsList.resize]
    split <;> rfl
  | appendOp v =>
    simp only [Op.step, JsList.append, JsList.resize]
    split <;> rfl
  | popOp =>
    simp only [Op.step, JsList.pop]
    split <;> rfl
  | setOp i v =>
    simp only [Op.step, JsList.set]
    split <;> rfl
  | clearOp => rfl

theorem runOps_initialCapacity {α : Type} (ops : List (Op α)) (s : JsList α) :
    (runOps ops s).initialCapacity = s.initialCapacity := by
  induction ops generalizing s with
  | nil => rfl
  | cons o rest ih =>
    rw [runOps_cons, ih, Op.step_initialCapacity]

theorem JsList.clear_eq_mkList {α : Type} (s : JsList α) :
    s.clear = JsList.mkList α s.initialCapacity := rfl

/-- C4: for every sequence of `prepend` and `append` calls starting from an
empty `List` of any initial capacity ≥ 1, the buffer length equals the
length of the logical sequence determined by the call history (`prepend`
adds at logical index 0, `append` at logical index `length`), and `get i`
returns the `i`-th element of that logical sequence, regardless of how many
internal resizes occur at either end. -/
theorem c4_get_matches_call_history {α : Type} (c : ℤ) (hc : 1 ≤ c) (ops : List (Op α))
    (hops : ∀ o ∈ ops, o.isEndInsert) :
    (runOps ops (JsList.mkList α c)).length = ((runModel ops ([] : List α)).length : ℤ) ∧
    ∀ i : ℕ, i < (runModel ops ([] : List α)).length →
      (runOps ops (JsList.mkList α c)).get (i : ℤ) = (runModel ops ([] : List α))[i]? := by
  obtain ⟨hlen, htail, hbuf⟩ := runOps_sim ops (JsList.mkList_sim α c)
  refine ⟨hlen, ?_⟩
  intro i hi
  unfold JsList.get
  rw [if_neg (by omega), hbuf i hi]

/-- Witness for C4 at a concrete input: initial capacity 1 and the history
`append 10; prepend 20; prepend 30`, whose logical sequence is
`[30, 20, 10]`. -/
theorem c4_witness :
    ((1 : ℤ) ≤ 1) ∧
    (runOps [Op.appendOp 10, Op.prependOp 20, Op.prependOp 30] (JsList.mkList ℕ 1)).get 0 =
      some 30 ∧
    (runOps [Op.appendOp 10, Op.prependOp 20, Op.prependOp 30] (JsList.mkList ℕ 1)).get 1 =
      some 20 ∧
    (runOps [Op.appendOp 10, Op.prependOp 20, Op.prependOp 30] (JsList.mkList ℕ 1)).get 2 =
      some 10 := by
  have h := c4_get_matches_call_history 1 (by norm_num)
    [Op.appendOp 10, Op.prependOp 20, Op.prependOp 30]
    (by intro o ho; fin_cases ho <;> trivial)
  have h0 := h.2 0 (by decide)
  have h1 := h.2 1 (by decide)
  have h2 := h.2 2 (by decide)
  rw [(by decide : (runModel [Op.appendOp 10, Op.prependOp 20, Op.prependOp 30]
    ([] : List ℕ))[0]? = some 30)] at h0
  rw [(by decide : (runModel [Op.appendOp 10, Op.prependOp 20, Op.prependOp 30]
    ([] : List ℕ))[1]? = some 20)] at h1
  rw [(by decide : (runModel [Op.appendOp 10, Op.prependOp 20, Op.prependOp 30]
    ([] : List ℕ))[2]? = some 10)] at h2
  exact ⟨by norm_num, by exact_mod_cast h0, by exact_mod_cast h1, by exact_mod_cast h2⟩

/-- C5 as stated is false: with initial capacity 1 the history
`append 0; prepend 1; prepend 2` leaves length 3 but capacity 2 — the
second `prepend` finds `_head = -1 ≠ 0` and writes a property at index -2
without any resize, so `capacity ≥ length` fails. -/
theorem c5_counterexample :
    ¬ ((runOps [Op.appendOp 0, Op.prependOp 1, Op.prependOp 2]
          (JsList.mkList ℕ 1)).length ≤
        (runOps [Op.appendOp 0, Op.prependOp 1, Op.prependOp 2]
          (JsList.mkList ℕ 1)).capacity) := by
  decide

/-- C5 (amended to initial capacity ≥ 2): after any sequence of `prepend`,
`append`, `pop`, `set` and `clear` operations on a `List` created with
initial capacity ≥ 2, the invariant `capacity ≥ length` holds, and every
single operation either leaves the capacity unchanged, doubles it (resize
at an exhausted end), or resets it to the initial capacity (`clear`). -/
theorem c5_capacity_invariant {α : Type} (c : ℤ) (hc : 2 ≤ c) (ops : List (Op α)) :
    (runOps ops (JsList.mkList α c)).length ≤ (runOps ops (JsList.mkList α c)).capacity ∧
    ∀ (s : JsList α) (o : Op α),
      (o.step s).capacity = s.capacity ∨ (o.step s).capacity = 2 * s.capacity ∨
        (o.step s).capacity = s.initialCapacity := by
  constructor
  · have h := runOps_capInv ops (JsList.capInv_mkList α c hc)
    simp only [CapInv] at h
    omega
  · intro s o
    exact Op.capacity_change s o

/-- Witness for C5 at a concrete input: initial capacity 2, appending three
items (one resize to capacity 4). -/
theorem c5_witness :
    ((2 : ℤ) ≤ 2) ∧
    (runOps [Op.appendOp 10, Op.appendOp 20, Op.appendOp 30] (JsList.mkList ℕ 2)).length ≤
      (runOps [Op.appendOp 10, Op.appendOp 20, Op.appendOp 30] (JsList.mkList ℕ 2)).capacity := by
  exact ⟨by norm_num,
    (c5_capacity_invariant 2 (by norm_num) [Op.appendOp 10, Op.appendOp 20, Op.appendOp 30]).1⟩

/-- C6: `get` with an out-of-range index returns the no-value sentinel
without reading the buffer, `set` with an out-of-range index returns
`false` and leaves the state entirely unchanged, and `pop` on an empty
sequence returns the sentinel and leaves the state unchanged; all three are
total functions (they never throw). -/
theorem c6_out_of_range_is_safe {α : Type} (s : JsList α) (i : ℤ) (v : α) :
    (i < 0 ∨ s.length ≤ i → s.get i = none ∧ s.set i v = (false, s)) ∧
    (s.length = 0 → s.pop = (none, s)) := by
  refine ⟨fun h => ⟨?_, ?_⟩, fun h => ?_⟩
  · unfold JsList.get
    rw [if_pos h]
  · unfold JsList.set
    rw [if_pos h]
  · unfold JsList.pop
    rw [if_pos h]

/-- Witness for C6 at a concrete input: a fresh `List` of capacity 4 with
`get (-1)`, `set (-1) 7` and `pop` on the empty state. -/
theorem c6_witness :
    ((-1 : ℤ) < 0 ∨ (JsList.mkList ℕ 4).length ≤ -1) ∧
    (JsList.mkList ℕ 4).get (-1) = none ∧
    (JsList.mkList ℕ 4).set (-1) 7 = (false, JsList.mkList ℕ 4) ∧
    (JsList.mkList ℕ 4).length = 0 ∧
    (JsList.mkList ℕ 4).pop = (none, JsList.mkList ℕ 4) := by
  have h := c6_out_of_range_is_safe (JsList.mkList ℕ 4) (-1) 7
  have hcond : (-1 : ℤ) < 0 ∨ (JsList.mkList ℕ 4).length ≤ -1 := Or.inl (by norm_num)
  exact ⟨hcond, (h.1 hcond).1, (h.1 hcond).2, by decide, h.2 (by decide)⟩

/-- C7: `clear()` on any state reached from a fresh `List` of initial
capacity `c` yields exactly the fresh `List` of initial capacity `c` —
length 0, capacity reset to `c` — so every subsequent operation sequence
(including its resize trigger points) behaves identically to running it on
a freshly created `List`. -/
theorem c7_clear_resets_to_fresh {α : Type} (c : ℤ) (ops ops2 : List (Op α)) :
    (runOps ops (JsList.mkList α c)).clear = JsList.mkList α c ∧
    (runOps ops (JsList.mkList α c)).clear.length = 0 ∧
    (runOps ops (JsList.mkList α c)).clear.capacity = c ∧
    runOps ops2 (runOps ops (JsList.mkList α c)).clear = runOps ops2 (JsList.mkList α c) := by
  have h : (runOps ops (JsList.mkList α c)).clear = JsList.mkList α c := by
    rw [JsList.clear_eq_mkList, runOps_initialCapacity]
    rfl
  exact ⟨h, by rw [h]; rfl, by rw [h]; rfl, by rw [h]⟩

theorem dft_get (x : List Pt) (k : ℕ) (hk : k < (dft x).length) :
    (dft x).get ⟨k, hk⟩ =
      { re := dftRe x k
        im := dftIm x k
        freq := k
        amp := Real.sqrt (dftRe x k ^ 2 + dftIm x k ^ 2)
        phase := atan2 (dftIm x k) (dftRe x k) } := by
  simp [dft, List.get_eq_getElem, List.getElem_map, List.getElem_range]

/-- C1: `dft` returns exactly `N` descriptors in frequency-index order, and
for each `k < N` the descriptor satisfies the analysis formulas
`re_k = (1/N) Σ_n (x_n cos(2πkn/N) + y_n sin(2πkn/N))`,
`im_k = (1/N) Σ_n (-x_n sin(2πkn/N) + y_n cos(2πkn/N))`,
`amp = sqrt(re² + im²)`, `phase = atan2(im, re)`, `freq = k`; the function
is a pure function of its input. -/
theorem c1_dft_descriptors (x : List Pt) (hN : 1 ≤ x.length) :
    (dft x).length = x.length ∧
    ∀ (k : ℕ) (hk : k < (dft x).length),
      ((dft x).get ⟨k, hk⟩).re =
        (1 / (x.length : ℝ)) * ∑ n ∈ Finset.range x.length,
          ((x.getD n ⟨0, 0⟩).re * Real.cos (2 * π * k * n / x.length) +
            (x.getD n ⟨0, 0⟩).im * Real.sin (2 * π * k * n / x.length)) ∧
      ((dft x).get ⟨k, hk⟩).im =
        (1 / (x.length : ℝ)) * ∑ n ∈ Finset.range x.length,
          (-(x.getD n ⟨0, 0⟩).re * Real.sin (2 * π * k * n / x.length) +
            (x.getD n ⟨0, 0⟩).im * Real.cos (2 * π * k * n / x.length)) ∧
      ((dft x).get ⟨k, hk⟩).amp =
        Real.sqrt (((dft x).get ⟨k, hk⟩).re ^ 2 + ((dft x).get ⟨k, hk⟩).im ^ 2) ∧
      ((dft x).get ⟨k, hk⟩).phase =
        atan2 ((dft x).get ⟨k, hk⟩).im ((dft x).get ⟨k, hk⟩).re ∧
      ((dft x).get ⟨k, hk⟩).freq = k := by
  refine ⟨by simp [dft], ?_⟩
  intro k hk
  rw [dft_get]
  refine ⟨?_, ?_, rfl, rfl, rfl⟩
  · rw [dftRe, one_div, inv_mul_eq_div]
  · rw [dftIm, one_div, inv_mul_eq_div]

/-- Witness for C1 at the concrete one-point input `[{re := 1, im := 2}]`. -/
theorem c1_witness :
    1 ≤ ([(⟨1, 2⟩ : Pt)] : List Pt).length ∧
    (dft [(⟨1, 2⟩ : Pt)]).length = ([(⟨1, 2⟩ : Pt)] : List Pt).length := by
  exact ⟨by norm_num, (c1_dft_descriptors [(⟨1, 2⟩ : Pt)] (by norm_num)).1⟩

theorem mul_exp_re (a b θ : ℝ) :
    (((a : ℂ) + (b : ℂ) * Complex.I) * Complex.exp ((θ : ℂ) * Complex.I)).re =
      a * Real.cos θ - b * Real.sin θ := by
  rw [Complex.exp_mul_I, ← Complex.ofReal_cos, ← Complex.ofReal_sin]
  simp [Complex.add_re, Complex.add_im, Complex.mul_re, Complex.mul_im,
    Complex.cos_ofReal_re, Complex.sin_ofReal_re]

theorem mul_exp_im (a b θ : ℝ) :
    (((a : ℂ) + (b : ℂ) * Complex.I) * Complex.exp ((θ : ℂ) * Complex.I)).im =
      a * Real.sin θ + b * Real.cos θ := by
  rw [Complex.exp_mul_I, ← Complex.ofReal_cos, ← Complex.ofReal_sin]
  simp [Complex.add_re, Complex.add_im, Complex.mul_re, Complex.mul_im,
    Complex.cos_ofReal_re, Complex.sin_ofReal_re]

theorem sqrt_sq_add_sq_eq_abs (a b : ℝ) :
    Real.sqrt (a ^ 2 + b ^ 2) = Complex.abs ⟨a, b⟩ := by
  rw [Complex.abs_apply, Complex.normSq_mk]
  ring_nf

theorem amp_cos (a b θ : ℝ) :
    Real.sqrt (a ^ 2 + b ^ 2) * Real.cos (θ + atan2 b a) =
      a * Real.cos θ - b * Real.sin θ := by
  rw [sqrt_sq_add_sq_eq_abs, atan2, Real.cos_add]
  have h1 := Complex.abs_mul_cos_arg ⟨a, b⟩
  have h2 := Complex.abs_mul_sin_arg ⟨a, b⟩
  linear_combination Real.cos θ * h1 - Real.sin θ * h2

theorem amp_sin (a b θ : ℝ) :
    Real.sqrt (a ^ 2 + b ^ 2) * Real.sin (θ + atan2 b a) =
      a * Real.sin θ + b * Real.cos θ := by
  rw [sqrt_sq_add_sq_eq_abs, atan2, Real.sin_add]
  have h1 := Complex.abs_mul_cos_arg ⟨a, b⟩
  have h2 := Complex.abs_mul_sin_arg ⟨a, b⟩
  linear_combination Real.sin θ * h1 + Real.cos θ * h2

theorem list_range_map_sum (n : ℕ) (f : ℕ → ℝ) :
    ((List.range n).map f).sum = ∑ k ∈ Finset.range n, f k := by
  induction n with
  | zero => simp
  | succ m ih => rw [List.range_succ, Finset.sum_range_succ, List.map_append, List.sum_append, ih]; simp

theorem exp_unit_pow (N : ℕ) (j : ℤ) (k : ℕ) :
    Complex.exp (((2 * π * j * k / N : ℝ) : ℂ) * Complex.I) =
      Complex.exp (((2 * π * j / N : ℝ) : ℂ) * Complex.I) ^ k := by
  rw [← Complex.exp_nat_mul]
  congr 1
  push_cast
  ring

theorem exp_unit_pow_N (N : ℕ) (hN : 1 ≤ N) (j : ℤ) :
    Complex.exp (((2 * π * j / N : ℝ) : ℂ) * Complex.I) ^ N = 1 := by
  rw [← Complex.exp_nat_mul]
  have hNC : (N : ℂ) ≠ 0 := Nat.cast_ne_zero.mpr (by omega)
  have harg : (N : ℂ) * (((2 * π * j / N : ℝ) : ℂ) * Complex.I) =
      (j : ℂ) * (2 * (π : ℂ) * Complex.I) := by
    push_cast
    field_simp
    ring
  rw [harg]
  exact Complex.exp_int_mul_two_pi_mul_I j

theorem exp_unit_ne_one (N : ℕ) (hN : 1 ≤ N) (j : ℤ) (hj : ¬ (N : ℤ) ∣ j) :
    Complex.exp (((2 * π * j / N : ℝ) : ℂ) * Complex.I) ≠ 1 := by
  intro hz
  rw [Complex.exp_eq_one_iff] at hz
  obtain ⟨m, hm⟩ := hz
  apply hj
  have hNR : (N : ℝ) ≠ 0 := by positivity
  have hm2 : ((2 * π * j / N : ℝ) : ℂ) = (((m : ℝ) * (2 * π) : ℝ) : ℂ) := by
    apply mul_right_cancel₀ Complex.I_ne_zero
    rw [hm]
    push_cast
    ring
  have hm3 : 2 * π * (j : ℝ) / N = (m : ℝ) * (2 * π) := Complex.ofReal_inj.mp hm2
  have hm4 : 2 * π * ((j : ℝ) - (m : ℝ) * (N : ℝ)) = 0 := by
    field_simp at hm3
    linarith
  have hm5 : (j : ℝ) = (m : ℝ) * (N : ℝ) := by
    rcases mul_eq_zero.mp hm4 with h | h
    · exact absurd h (by positivity)
    · linarith
  have hm6 : j = m * N := by exact_mod_cast hm5
  exact ⟨m, by rw [hm6]; ring⟩

theorem exp_orth (N : ℕ) (hN : 1 ≤ N) (j : ℤ) :
    ∑ k ∈ Finset.range N, Complex.exp (((2 * π * j * k / N : ℝ) : ℂ) * Complex.I) =
      if (N : ℤ) ∣ j then (N : ℂ) else 0 := by
  rw [Finset.sum_congr rfl fun k _ => exp_unit_pow N j k]
  by_cases hdvd : (N : ℤ) ∣ j
  · obtain ⟨m, hm⟩ := hdvd
    have hz1 : Complex.exp (((2 * π * j / N : ℝ) : ℂ) * Complex.I) = 1 := by
      have hNC : (N : ℂ) ≠ 0 := Nat.cast_ne_zero.mpr (by omega)
      have harg : ((2 * π * j / N : ℝ) : ℂ) * Complex.I =
          (m : ℂ) * (2 * (π : ℂ) * Complex.I) := by
        subst hm
        push_cast
        field_simp
        ring
      rw [harg]
      exact Complex.exp_int_mul_two_pi_mul_I m
    rw [if_pos ⟨m, hm⟩]
    simp only [hz1, one_pow, Finset.sum_const, Finset.card_range, nsmul_eq_mul, mul_one]
  · rw [geom_sum_eq (exp_unit_ne_one N hN j hdvd), exp_unit_pow_N N hN j, if_neg hdvd]
    simp

theorem dft_coeff_complex (x : List Pt) (k : ℕ) :
    ((dftRe x k : ℝ) : ℂ) + ((dftIm x k : ℝ) : ℂ) * Complex.I =
      (((1 / x.length : ℝ)) : ℂ) * ∑ n ∈ Finset.range x.length,
        (((x.getD n ⟨0, 0⟩).re : ℝ) + ((x.getD n ⟨0, 0⟩).im : ℝ) * Complex.I) *
          Complex.exp (((-(2 * π * k * n / x.length) : ℝ) : ℂ) * Complex.I) := by
  rw [Complex.ext_iff]
  constructor
  · rw [Complex.re_ofReal_mul, Complex.re_sum]
    rw [Finset.sum_congr rfl fun n _ => mul_exp_re _ _ _]
    simp only [Complex.add_re, Complex.ofReal_re, Complex.mul_I_re, Complex.ofReal_im,
      neg_zero, add_zero, Real.cos_neg, Real.sin_neg]
    rw [dftRe, eq_comm, one_div, inv_mul_eq_div]
    congr 1
    refine Finset.sum_congr rfl fun n _ => by ring
  · rw [Complex.im_ofReal_mul, Complex.im_sum]
    rw [Finset.sum_congr rfl fun n _ => mul_exp_im _ _ _]
    simp only [Complex.add_im, Complex.ofReal_im, Complex.mul_I_im, Complex.ofReal_re,
      zero_add, Real.cos_neg, Real.sin_neg]
    rw [dftIm, eq_comm, one_div, inv_mul_eq_div]
    congr 1
    refine Finset.sum_congr rfl fun n _ => by ring

theorem dft_inversion (x : List Pt) (n : ℕ) (hn : n < x.length) :
    ∑ k ∈ Finset.range x.length,
      (((dftRe x k : ℝ) : ℂ) + ((dftIm x k : ℝ) : ℂ) * Complex.I) *
        Complex.exp (((2 * π * k * n / x.length : ℝ) : ℂ) * Complex.I) =
      ((x.getD n ⟨0, 0⟩).re : ℝ) + ((x.getD n ⟨0, 0⟩).im : ℝ) * Complex.I := by
  have hN : 1 ≤ x.length := by omega
  have hNC : (x.length : ℂ) ≠ 0 := Nat.cast_ne_zero.mpr (by omega)
  have hstep : ∀ k ∈ Finset.range x.length,
      (((dftRe x k : ℝ) : ℂ) + ((dftIm x k : ℝ) : ℂ) * Complex.I) *
          Complex.exp (((2 * π * k * n / x.length : ℝ) : ℂ) * Complex.I) =
        ∑ m ∈ Finset.range x.length,
          (((1 / x.length : ℝ)) : ℂ) *
            ((((x.getD m ⟨0, 0⟩).re : ℝ) + ((x.getD m ⟨0, 0⟩).im : ℝ) * Complex.I) *
              Complex.exp
                (((2 * π * ((((n : ℤ) - (m : ℤ)) : ℤ) : ℝ) * k / x.length : ℝ) : ℂ) * Complex.I)) := by
    intro k _
    rw [dft_coeff_complex, mul_assoc, Finset.sum_mul, Finset.mul_sum]
    refine Finset.sum_congr rfl fun m _ => ?_
    rw [mul_assoc, ← Complex.exp_add]
    congr 2
    push_cast
    ring
  rw [Finset.sum_congr rfl hstep, Finset.sum_comm]
  have hinner : ∀ m ∈ Finset.range x.length,
      ∑ k ∈ Finset.range x.length,
        (((1 / x.length : ℝ)) : ℂ) *
          ((((x.getD m ⟨0, 0⟩).re : ℝ) + ((x.getD m ⟨0, 0⟩).im : ℝ) * Complex.I) *
            Complex.exp
              (((2 * π * ((((n : ℤ) - (m : ℤ)) : ℤ) : ℝ) * k / x.length : ℝ) : ℂ) * Complex.I)) =
        (((1 / x.length : ℝ)) : ℂ) *
          ((((x.getD m ⟨0, 0⟩).re : ℝ) + ((x.getD m ⟨0, 0⟩).im : ℝ) * Complex.I) *
            (if (x.length : ℤ) ∣ ((n : ℤ) - (m : ℤ)) then (x.length : ℂ) else 0)) := by
    intro m _
    rw [← Finset.mul_sum, ← Finset.mul_sum, exp_orth x.length hN ((n : ℤ) - (m : ℤ))]
  rw [Finset.sum_congr rfl hinner]
  rw [Finset.sum_eq_single n]
  · rw [if_pos (by simp), one_div]
    push_cast
    field_simp
  · intro m hm hmn
    have hmN : m < x.length := Finset.mem_range.mp hm
    have hndvd : ¬ ((x.length : ℤ) ∣ ((n : ℤ) - (m : ℤ))) := by
      intro hdvd
      obtain ⟨t, ht⟩ := hdvd
      have hN1 : (1 : ℤ) ≤ (x.length : ℤ) := by exact_mod_cast hN
      rcases lt_trichotomy t 0 with h | h | h
      · have h2 : (x.length : ℤ) * t ≤ -(x.length : ℤ) := by nlinarith
        omega
      · subst h
        simp at ht
        omega
      · have h2 : (x.length : ℤ) ≤ (x.length : ℤ) * t := by nlinarith
        omega
    rw [if_neg hndvd]
    simp
  · intro hnot
    exact absurd (Finset.mem_range.mpr hn) hnot

/-- C2: summing over all N descriptors produced by `dft` the contribution
`(amp·cos(freq·t + phase), amp·sin(freq·t + phase))` at the sample time
`t = 2πn/N` reproduces the original n-th input point exactly (inverse-DFT
identity; the forward transform already carries the 1/N normalization). -/
theorem c2_reconstruction (x : List Pt) (hN : 1 ≤ x.length) (n : ℕ) (hn : n < x.length) :
    ((dft x).map fun f =>
        f.amp * Real.cos ((f.freq : ℝ) * (2 * π * n / x.length) + f.phase)).sum =
      (x.get ⟨n, hn⟩).re ∧
    ((dft x).map fun f =>
        f.amp * Real.sin ((f.freq : ℝ) * (2 * π * n / x.length) + f.phase)).sum =
      (x.get ⟨n, hn⟩).im := by
  have hD := dft_inversion x n hn
  have hgd : x.getD n ⟨0, 0⟩ = x.get ⟨n, hn⟩ := by
    rw [List.getD_eq_getElem _ _ hn, List.get_eq_getElem]
  have hang : ∀ k : ℕ, (((k : ℝ) * (2 * π * n / x.length) : ℝ) : ℂ) =
      ((2 * π * k * n / x.length : ℝ) : ℂ) := by
    intro k
    push_cast
    ring
  constructor
  · rw [dft, List.map_map, list_range_map_sum]
    have hterm : ∀ k ∈ Finset.range x.length,
        ((fun f => f.amp * Real.cos ((f.freq : ℝ) * (2 * π * n / x.length) + f.phase)) ∘
            fun k => Desc.mk (dftRe x k) (dftIm x k) k
              (Real.sqrt (dftRe x k ^ 2 + dftIm x k ^ 2))
              (atan2 (dftIm x k) (dftRe x k))) k =
          ((((dftRe x k : ℝ) : ℂ) + ((dftIm x k : ℝ) : ℂ) * Complex.I) *
            Complex.exp (((2 * π * k * n / x.length : ℝ) : ℂ) * Complex.I)).re := by
      intro k _
      dsimp only [Function.comp]
      rw [amp_cos, ← hang, mul_exp_re]
    rw [Finset.sum_congr rfl hterm, ← Complex.re_sum, hD, hgd]
    simp
  · rw [dft, List.map_map, list_range_map_sum]
    have hterm : ∀ k ∈ Finset.range x.length,
        ((fun f => f.amp * Real.sin ((f.freq : ℝ) * (2 * π * n / x.length) + f.phase)) ∘
            fun k => Desc.mk (dftRe x k) (dftIm x k) k
              (Real.sqrt (dftRe x k ^ 2 + dftIm x k ^ 2))
              (atan2 (dftIm x k) (dftRe x k))) k =
          ((((dftRe x k : ℝ) : ℂ) + ((dftIm x k : ℝ) : ℂ) * Complex.I) *
            Complex.exp (((2 * π * k * n / x.length : ℝ) : ℂ) * Complex.I)).im := by
      intro k _
      dsimp only [Function.comp]
      rw [amp_sin, ← hang, mul_exp_im]
    rw [Finset.sum_congr rfl hterm, ← Complex.im_sum, hD, hgd]
    simp

theorem JsList.prepend_length {α : Type} (s : JsList α) (v : α) :
    (s.prepend v).length = s.length + 1 := by
  unfold JsList.prepend
  split <;> rfl

theorem JsList.clear_length {α : Type} (s : JsList α) : s.clear.length = 0 := rfl

theorem fmod_bounds (a b : ℝ) (hb : 0 < b) : 0 ≤ fmod a b ∧ fmod a b < b := by
  have h : fmod a b = b * Int.fract (a / b) := by
    rw [fmod, Int.fract]
    have hb0 : b ≠ 0 := ne_of_gt hb
    field_simp
  refine ⟨by rw [h]; exact mul_nonneg hb.le (Int.fract_nonneg _), ?_⟩
  rw [h]
  calc b * Int.fract (a / b) < b * 1 := mul_lt_mul_of_pos_left (Int.fract_lt_one _) hb
    _ = b := mul_one b

theorem fmod_eq_self (a b : ℝ) (h0 : 0 ≤ a) (hab : a < b) : fmod a b = a := by
  have hb : 0 < b := lt_of_le_of_lt h0 hab
  have hfl : ⌊a / b⌋ = 0 := by
    rw [Int.floor_eq_zero_iff]
    exact Set.mem_Ico.mpr ⟨div_nonneg h0 hb.le, (div_lt_one hb).mpr hab⟩
  rw [fmod, hfl]
  simp

theorem fmod_self (b : ℝ) (hb : 0 < b) : fmod b b = 0 := by
  rw [fmod, div_self (ne_of_gt hb), Int.floor_one]
  ring

theorem wrap_iff (N : ℕ) (hN : 1 ≤ N) (k : ℕ) :
    2 * π ≤ ((k : ℝ) + 1) * (2 * π / (N : ℝ)) ↔ N ≤ k + 1 := by
  have hNR : (0 : ℝ) < N := Nat.cast_pos.mpr (by omega)
  have hNdt : (N : ℝ) * (2 * π / N) = 2 * π := by field_simp
  constructor
  · intro h
    by_contra hcon
    push_neg at hcon
    have hlt : ((k : ℝ) + 1) < N := by exact_mod_cast hcon
    have := mul_lt_mul_of_pos_right hlt (show (0 : ℝ) < 2 * π / N by positivity)
    linarith
  · intro h
    have hle : (N : ℝ) ≤ (k : ℝ) + 1 := by exact_mod_cast h
    have := mul_le_mul_of_nonneg_right hle (show (0 : ℝ) ≤ 2 * π / N by positivity)
    linarith

/-- C8: on every processed frame with `time` in `[0, 2π)`, the new `time`
equals the old time advanced by exactly `2π/N` and reduced modulo `2π`
(which is the identity when no wrap occurs), it again lies in `[0, 2π)`,
and the trail is cleared in the step exactly when the advanced time reaches
`2π` (otherwise the step only prepends to it). -/
theorem c8_time_invariant (fourier : List Desc) (hd : 1 ≤ fourier.length)
    (s : AnimState) (ct : ℝ) (h0 : 0 ≤ s.time) (h2 : s.time < 2 * π) :
    (processedFrame fourier s ct).time =
      fmod (s.time + 2 * π / fourier.length) (2 * π) ∧
    0 ≤ (processedFrame fourier s ct).time ∧
    (processedFrame fourier s ct).time < 2 * π ∧
    (2 * π ≤ s.time + 2 * π / fourier.length →
      (processedFrame fourier s ct).path =
        (s.path.prepend (tip fourier s.time)).clear) ∧
    (s.time + 2 * π / fourier.length < 2 * π →
      (processedFrame fourier s ct).path = s.path.prepend (tip fourier s.time)) := by
  have hπ : (0 : ℝ) < 2 * π := by positivity
  have hdt0 : (0 : ℝ) ≤ 2 * π / fourier.length := by positivity
  simp only [processedFrame, dtOf]
  split
  next hwrap =>
    exact ⟨rfl, (fmod_bounds _ _ hπ).1, (fmod_bounds _ _ hπ).2, fun _ => rfl,
      fun hlt => absurd hwrap (not_le.mpr hlt)⟩
  next hnw =>
    have hlt : s.time + 2 * π / fourier.length < 2 * π := not_le.mp hnw
    exact ⟨(fmod_eq_self _ _ (by linarith) hlt).symm, by linarith, hlt,
      fun hge => absurd hge hnw, fun _ => rfl⟩

/-- Witness for C8 at a concrete state: a single zero descriptor, initial
time 0, empty trail of capacity 1. -/
theorem c8_witness :
    (1 ≤ ([Desc.mk 0 0 0 0 0] : List Desc).length) ∧ ((0 : ℝ) ≤ 0) ∧ ((0 : ℝ) < 2 * π) ∧
    (processedFrame [Desc.mk 0 0 0 0 0] ⟨0, JsList.mkList XY 1, 0⟩ 16).time =
      fmod ((0 : ℝ) + 2 * π / ([Desc.mk 0 0 0 0 0] : List Desc).length) (2 * π) := by
  have h := c8_time_invariant [Desc.mk 0 0 0 0 0] (by norm_num)
    ⟨0, JsList.mkList XY 1, 0⟩ 16 le_rfl (by positivity)
  exact ⟨by norm_num, le_rfl, by positivity, h.1⟩

/-- C10: the trail buffer never holds more than `N` points at the end of a
frame step.  The invariant `TrailInv` (time = k·dt with the trail no longer
than k < N) holds initially and after a resize reset, is preserved by every
processed frame, and bounds the trail length by `N`; moreover each
processed frame prepends exactly one point, and resets the trail to length
0 exactly when the advanced time reaches `2π`. -/
theorem c10_trail_bound (fourier : List Desc) (hd : 1 ≤ fourier.length) :
    (∀ s : AnimState, TrailInv fourier s → s.path.length ≤ (fourier.length : ℤ)) ∧
    (∀ (s : AnimState) (ct : ℝ), TrailInv fourier s →
      TrailInv fourier (processedFrame fourier s ct)) ∧
    (∀ (s : AnimState) (ct : ℝ), TrailInv fourier s →
      (processedFrame fourier s ct).path.length ≤ (fourier.length : ℤ)) ∧
    (∀ (s : AnimState) (ct : ℝ), 2 * π ≤ s.time + dtOf fourier →
      (processedFrame fourier s ct).path.length = 0) ∧
    (∀ (s : AnimState) (ct : ℝ), s.time + dtOf fourier < 2 * π →
      (processedFrame fourier s ct).path.length = s.path.length + 1) ∧
    (∀ s : AnimState, TrailInv fourier (resizeReset s)) := by
  have hπ : (0 : ℝ) < 2 * π := by positivity
  have hbound : ∀ s : AnimState, TrailInv fourier s →
      s.path.length ≤ (fourier.length : ℤ) := by
    rintro s ⟨k, hk, _, hl⟩
    omega
  have hpres : ∀ (s : AnimState) (ct : ℝ), TrailInv fourier s →
      TrailInv fourier (processedFrame fourier s ct) := by
    rintro s ct ⟨k, hk, ht, hl⟩
    have ht1 : s.time + 2 * π / (fourier.length : ℝ) =
        ((k : ℝ) + 1) * (2 * π / fourier.length) := by
      rw [ht, dtOf]
      ring
    simp only [processedFrame, dtOf]
    split
    next hwrap =>
      rw [ht1] at hwrap
      have hk1 : fourier.length ≤ k + 1 := (wrap_iff fourier.length hd k).mp hwrap
      have hkN : k + 1 = fourier.length := by omega
      refine ⟨0, by omega, ?_, ?_⟩
      · show fmod (s.time + 2 * π / (fourier.length : ℝ)) (2 * π) = ((0 : ℕ) : ℝ) * dtOf fourier
        have harg : s.time + 2 * π / (fourier.length : ℝ) = 2 * π := by
          rw [ht1, ← hkN]
          push_cast
          have hNR : ((k : ℝ) + 1) ≠ 0 := by positivity
          field_simp
        rw [harg, fmod_self _ hπ]
        simp
      · show (JsList.clear _).length ≤ ((0 : ℕ) : ℤ)
        rw [JsList.clear_length]
        simp
    next hnw =>
      rw [ht1] at hnw
      have hk1 : ¬ (fourier.length ≤ k + 1) := fun h =>
        hnw ((wrap_iff fourier.length hd k).mpr h)
      refine ⟨k + 1, by omega, ?_, ?_⟩
      · show s.time + 2 * π / (fourier.length : ℝ) = ((k + 1 : ℕ) : ℝ) * dtOf fourier
        rw [ht1, dtOf]
        push_cast
        ring
      · show (JsList.prepend _ _).length ≤ ((k + 1 : ℕ) : ℤ)
        rw [JsList.prepend_length]
        push_cast
        omega
  refine ⟨hbound, hpres, fun s ct h => hbound _ (hpres s ct h), ?_, ?_, ?_⟩
  · intro s ct hwrap
    simp only [processedFrame]
    rw [if_pos hwrap]
    exact JsList.clear_length _
  · intro s ct hlt
    simp only [processedFrame]
    rw [if_neg (not_le.mpr hlt)]
    exact JsList.prepend_length _ _
  · intro s
    exact ⟨0, by omega, by simp [resizeReset], by simp [resizeReset, JsList.clear_length]⟩

/-- Witness for C10 at a concrete state: a single zero descriptor and the
initial animation state (time 0, empty trail of capacity 1). -/
theorem c10_witness :
    (1 ≤ ([Desc.mk 0 0 0 0 0] : List Desc).length) ∧
    TrailInv [Desc.mk 0 0 0 0 0] (⟨0, JsList.mkList XY 1, 0⟩ : AnimState) ∧
    (⟨0, JsList.mkList XY 1, 0⟩ : AnimState).path.length ≤
      (([Desc.mk 0 0 0 0 0] : List Desc).length : ℤ) := by
  have hinv : TrailInv [Desc.mk 0 0 0 0 0] (⟨0, JsList.mkList XY 1, 0⟩ : AnimState) := by
    refine ⟨0, by norm_num, by norm_num, ?_⟩
    show (JsList.mkList XY 1).length ≤ ((0 : ℕ) : ℤ)
    simp [JsList.mkList]
  exact ⟨by norm_num, hinv, (c10_trail_bound _ (by norm_num)).1 _ hinv⟩

/-- C9 as stated is false: the tick handler `draw` takes no notice of
cancellation — it has no authoritative-cycle check at all — and mutates the
animation state on every invocation.  At the initial state a (stale or
fresh) tick with `currentTime = 100` changes `lastFrameTime` from 0 to 100,
so a stale tick does not leave the state unchanged. -/
theorem c9_counterexample :
    (drawStep [Desc.mk 0 0 0 0 0] (⟨0, JsList.mkList XY 1, 0⟩ : AnimState)
        100).lastFrameTime ≠
      (⟨0, JsList.mkList XY 1, 0⟩ : AnimState).lastFrameTime := by
  norm_num [drawStep]

/-- C9 (amended): no stale tick is ever delivered, because `resizeCanvas`
cancels the pending request before mutating state and every new request
receives a fresh, strictly larger handle — after any loop transition the
pending handle is the freshly issued one, handle freshness is preserved,
and a handle that was pending before the transition is never pending after
it.  The handler itself performs no staleness check (see the
counterexample), so this host-side discipline is the only protection. -/
theorem c9_no_stale_tick (fourier : List Desc) (l l2 : LoopState)
    (hstep : LoopStep fourier l l2) :
    l2.nextHandle = l.nextHandle + 1 ∧
    l2.pending = some l.nextHandle ∧
    (HandleInv l → HandleInv l2) ∧
    (∀ h0 : ℕ, HandleInv l → l.pending = some h0 → l2.pending ≠ some h0) := by
  have hgen : l2.pending = some l.nextHandle ∧ l2.nextHandle = l.nextHandle + 1 := by
    cases hstep with
    | tick h t hp => exact ⟨rfl, rfl⟩
    | resize => exact ⟨rfl, rfl⟩
  obtain ⟨hp2, hn2⟩ := hgen
  refine ⟨hn2, hp2, ?_, ?_⟩
  · intro hinv h hh
    rw [hp2] at hh
    injection hh with hh
    omega
  · intro h0 hinv hp0 hcon
    have hlt : h0 < l.nextHandle := hinv h0 hp0
    rw [hp2] at hcon
    injection hcon with hcon
    omega

/-- Witness for C9 (amended) at a concrete transition: a resize from a
state whose pending handle is 0 and next fresh handle is 1. -/
theorem c9_witness :
    ({ anim := resizeReset (⟨0, JsList.mkList XY 1, 0⟩ : AnimState),
        pending := some 1, nextHandle := 2 } : LoopState).pending = some 1 ∧
    ({ anim := resizeReset (⟨0, JsList.mkList XY 1, 0⟩ : AnimState),
        pending := some 1, nextHandle := 2 } : LoopState).nextHandle = 1 + 1 := by
  have h := c9_no_stale_tick [Desc.mk 0 0 0 0 0]
    ⟨⟨0, JsList.mkList XY 1, 0⟩, some 0, 1⟩ _
    (LoopStep.resize ⟨⟨0, JsList.mkList XY 1, 0⟩, some 0, 1⟩)
  exact ⟨h.2.1, h.1⟩

/-- C3 is violated by the code: the scale computation contains no clamping
of a degenerate bounding-box dimension.  For the finite path
`[(5,5), (5,5)]` (zero width and zero height) and viewport 800×600 the
computed scale is `min(800/0, 600/0) * 0.9 = Infinity`, a non-finite value
that the drawing transform then consumes. -/
theorem c3_degenerate_scale_not_finite :
    computeScale (.fin 800) (.fin 600) [(5, 5), (5, 5)] = JsNum.posInf ∧
    ¬ (computeScale (.fin 800) (.fin 600) [(5, 5), (5, 5)]).isFinite := by
  have h : computeScale (.fin 800) (.fin 600) [(5, 5), (5, 5)] = JsNum.posInf := by
    norm_num [computeScale, minXOf, maxXOf, minYOf, maxYOf, designWidthOf, designHeightOf,
      JsNum.lt, JsNum.sub, JsNum.div, JsNum.min, JsNum.mul]
  refine ⟨h, ?_⟩
  rw [h]
  exact fun hfin => hfin

/-- Witness for C2 at the concrete one-point input `[{re := 1, im := 2}]`
and index `n = 0`. -/
theorem c2_witness :
    (1 ≤ ([(⟨1, 2⟩ : Pt)] : List Pt).length) ∧
    ((dft [(⟨1, 2⟩ : Pt)]).map fun f =>
        f.amp * Real.cos ((f.freq : ℝ) *
          (2 * π * ((0 : ℕ) : ℝ) / ([(⟨1, 2⟩ : Pt)] : List Pt).length) + f.phase)).sum =
      (([(⟨1, 2⟩ : Pt)] : List Pt).get ⟨0, by norm_num⟩).re := by
  exact ⟨by norm_num, (c2_reconstruction [(⟨1, 2⟩ : Pt)] (by norm_num) 0 (by norm_num)).1⟩
